import Mathlib

set_option maxRecDepth 100000

/-!
Verification of the trade-session calendar library (tradesession-rs /
tradesessionpy).  The repository ships only the Python example drivers
(`ex1.py`, `testpy.py`); the engine itself (TimeSlice, TradeSession,
SessionMgr) is the Rust core the drivers import.  Every definition below that
embeds that missing core is therefore modelled from the specification text
(sections 3, 4, 7 of the spec), as its doc comment states.  Times are at
minute granularity; a minute-of-day is a natural number below 1440.
-/

/-- Modelled from the spec: error kinds of the core (spec section 7):
`InvalidSlice`, `ConflictingWrap`, `MalformedRecord`, `SessionNotFound`. -/
inductive SessErr where
  | InvalidSlice
  | ConflictingWrap
  | MalformedRecord
  | SessionNotFound
deriving DecidableEq

/-- Modelled from the spec: a wall-clock time of day at minute granularity,
an (hour, minute) component pair (spec section 3, TimeSlice attributes). -/
structure HM where
  hour : Nat
  minute : Nat
deriving DecidableEq

/-- A time component is in range when the hour is in `[0,23]` and the minute
is in `[0,59]` (spec section 3). -/
def HM.valid (t : HM) : Bool := t.hour ≤ 23 && t.minute ≤ 59

/-- Minutes since midnight of a time-of-day value. -/
def HM.toMin (t : HM) : Nat := t.hour * 60 + t.minute

/-- The time-of-day value of a minute-of-day number. -/
def HM.ofMin (m : Nat) : HM := HM.mk (m / 60) (m % 60)

/-- Modelled from the spec: a single directed time interval `(start, end)` at
minute granularity, possibly wrapping past midnight (spec section 3).  The
upper bound is called `stop` here because `end` is a Lean keyword. -/
structure TimeSlice where
  start : HM
  stop : HM
deriving DecidableEq

/-- Minutes since midnight of the slice's lower boundary. -/
def TimeSlice.smin (s : TimeSlice) : Nat := s.start.toMin

/-- Minutes since midnight of the slice's upper boundary. -/
def TimeSlice.emin (s : TimeSlice) : Nat := s.stop.toMin

/-- A slice wraps past midnight when its end is numerically earlier than its
start (spec glossary). -/
def TimeSlice.isWrap (s : TimeSlice) : Bool := s.emin < s.smin

/-- A slice is well formed when both components are in range and the slice is
not degenerate (`start != end`, spec section 3 invariant). -/
def TimeSlice.ok (s : TimeSlice) : Bool :=
  s.start.valid && s.stop.valid && s.start != s.stop

/-- Modelled from the spec: slice constructor; fails with `InvalidSlice` when
either time component is out of range or when `start == end` (spec 4.1). -/
def TimeSlice.new (a b : HM) : Except SessErr TimeSlice :=
  if (TimeSlice.mk a b).ok then Except.ok (TimeSlice.mk a b)
  else Except.error SessErr.InvalidSlice

/-- Modelled from the spec: membership of a minute-of-day in a slice
(spec 4.1 `contains`).  If `start < end` the slice is the same-day interval
`[start, end)`; if `start > end` it wraps: `[start, 24:00) ∪ [00:00, end)`.
`inc` closes the upper boundary (`inclusive_end`). -/
def TimeSlice.containsMin (s : TimeSlice) (t : Nat) (inc : Bool) : Bool :=
  if s.smin < s.emin then (s.smin ≤ t && t < s.emin) || (inc && t == s.emin)
  else (s.smin ≤ t || t < s.emin) || (inc && t == s.emin)

/-- Membership of a time-of-day value in a slice. -/
def TimeSlice.contains (s : TimeSlice) (t : HM) (inc : Bool) : Bool :=
  s.containsMin t.toMin inc

/-- The list `[a, a+1, ..., a+n-1]` of `n` consecutive minute numbers. -/
def minutesFrom (a : Nat) : Nat → List Nat
  | 0 => []
  | n+1 => a :: minutesFrom (a+1) n

/-- Modelled from the spec: the minute-start numbers covered by a slice, in
chronological order starting at `start`, wrapping through midnight when
needed, ending exactly before `end` (spec 4.1 `minutes`). -/
def TimeSlice.minutesM (s : TimeSlice) : List Nat :=
  if s.smin < s.emin then minutesFrom s.smin (s.emin - s.smin)
  else minutesFrom s.smin (1440 - s.smin) ++ minutesFrom 0 s.emin

/-- The minute-start instants covered by a slice, as time-of-day values. -/
def TimeSlice.minutes (s : TimeSlice) : List HM := s.minutesM.map HM.ofMin

/-- Modelled from the spec: a trade session is an ordered sequence of time
slices (spec section 3).  The cached 1440-entry minute-membership index is a
derived value here (`minuteIndex`), since it is rebuilt from the slices on
every normalization. -/
structure TradeSession where
  slices : List TimeSlice
deriving DecidableEq

/-- Whether some slice of the list covers the minute `t` (upper boundaries
exclusive): the content of the minute-membership presence table. -/
def coverList (l : List TimeSlice) (t : Nat) : Bool :=
  l.any (fun s => s.containsMin t false)

/-- The derived minute-membership index of a session (spec section 3). -/
def TradeSession.minuteIndex (S : TradeSession) (t : Nat) : Bool :=
  coverList S.slices t

/-- Modelled from the spec: membership query (spec 4.2 `in_session`); the
`inclusive_end` flag is applied at whichever slice boundary the instant falls
on, with the semantics of each slice's `contains` (spec 4.1). -/
def TradeSession.in_session (S : TradeSession) (t : HM) (inclusive_end : Bool) : Bool :=
  S.slices.any (fun s => s.contains t inclusive_end)

/-- Modelled from the spec: `add_slice` appends a raw slice without
normalizing (spec 4.2); the four arguments are start hour and minute and end
hour and minute, as in the example driver. -/
def TradeSession.add_slice (S : TradeSession) (sh sm eh em : Nat) : TradeSession :=
  TradeSession.mk (S.slices ++ [TimeSlice.mk (HM.mk sh sm) (HM.mk eh em)])

/-- Modelled from the spec: the ordered minute-start instants across all
slices, concatenated in the session's slice order (spec 4.2
`minutes_list`) — the serialization form used to round-trip a session. -/
def minutesCat : List TimeSlice → List HM
  | [] => []
  | s :: rest => s.minutes ++ minutesCat rest

/-- The serialized minute list of a session (spec 4.2 `minutes_list`). -/
def TradeSession.minutes_list (S : TradeSession) : List HM := minutesCat S.slices

/-- Length of the run of consecutively covered minutes starting at minute
`a % 1440` of the cyclic day described by `M`, bounded by the fuel. -/
def runLenAux (M : Nat → Bool) (a : Nat) : Nat → Nat
  | 0 => 0
  | f+1 => if M (a % 1440) then runLenAux M (a+1) f + 1 else 0

/-- Length of the maximal run of covered minutes starting at `a`. -/
def runLen (M : Nat → Bool) (a : Nat) : Nat := runLenAux M a 1440

/-- Length of the run of consecutively covered minutes strictly before minute
`t % 1440`, walking backwards cyclically, bounded by the fuel. -/
def backLenAux (M : Nat → Bool) (t : Nat) : Nat → Nat
  | 0 => 0
  | f+1 => if M ((t + 1439) % 1440) then backLenAux M ((t + 1439) % 1440) f + 1 else 0

/-- Length of the maximal covered run strictly before minute `t`. -/
def backLen (M : Nat → Bool) (t : Nat) : Nat := backLenAux M t 1440

/-- A minute starts a maximal run when it is covered and its cyclic
predecessor is not. -/
def isStart (M : Nat → Bool) (t : Nat) : Bool :=
  M t && !(M ((t + 1439) % 1440))

/-- The slice spanning the maximal covered run that starts at minute `a`. -/
def mkRunSlice (M : Nat → Bool) (a : Nat) : TimeSlice :=
  TimeSlice.mk (HM.ofMin a) (HM.ofMin ((a + runLen M a) % 1440))

/-- Whether every minute of the day is covered. -/
def allCovered (M : Nat → Bool) : Bool := (List.range 1440).all M

/-- Modelled from the spec: reconstruction of the minimal slice set from a
minute-membership function — detects the boundaries between contiguous
covered runs, including a run that wraps midnight, and emits one slice per
maximal run, chronologically by start (spec 4.2, section 3 invariants). -/
def reconstruct (M : Nat → Bool) : List TimeSlice :=
  ((List.range 1440).filter (isStart M)).map (mkRunSlice M)

/-- Modelled from the spec: reconstruction as a fallible step.  A day whose
every minute is covered has no slice representation (a slice with
`start == end` is invalid; the spec's open question on the degenerate whole
day), so it is rejected as `InvalidSlice`. -/
def reconstructE (M : Nat → Bool) : Except SessErr (List TimeSlice) :=
  if allCovered M then Except.error SessErr.InvalidSlice
  else Except.ok (reconstruct M)

/-- Modelled from the spec: the normalization pass (spec 4.2 `post_fix`):
fails with `InvalidSlice` if any input slice is out of range or degenerate;
fails with `ConflictingWrap` if more than one distinct wrapping slice is
supplied; otherwise sorts and merges the slices into the canonical minimal
slice set of their combined coverage (satisfying the section 3 invariants:
non-overlapping, at most one wrap, chronological order) and rebuilds the
minute-membership index. -/
def TradeSession.post_fix (S : TradeSession) : Except SessErr TradeSession :=
  if !(S.slices.all TimeSlice.ok) then Except.error SessErr.InvalidSlice
  else if 2 ≤ ((S.slices.filter TimeSlice.isWrap).dedup).length then
    Except.error SessErr.ConflictingWrap
  else (reconstructE (coverList S.slices)).map TradeSession.mk

/-- Modelled from the spec: construction from raw slices — stores the given
slices and immediately normalizes them (spec 4.2 `new`). -/
def TradeSession.new (l : List TimeSlice) : Except SessErr TradeSession :=
  (TradeSession.mk l).post_fix

/-- Modelled from the spec: construction from a flat minute list — detects
the boundaries between contiguous minute runs (including a run that wraps
midnight) and reconstructs the minimal slice set (spec 4.2). -/
def TradeSession.from_minutes (L : List HM) : Except SessErr TradeSession :=
  (reconstructE (fun t => L.any (fun x => x.toMin == t))).map TradeSession.mk

/-- Modelled from the spec: the built-in full session preset (spec 4.2
presets).  The spec gives the preset tables only by example behavior
(section 8: `in_session(09:30)` true, `in_session(11:40)` false); the table
below is the conventional day-plus-night table consistent with it. -/
def TradeSession.new_full_session : TradeSession :=
  TradeSession.mk
    [TimeSlice.mk (HM.mk 9 0) (HM.mk 11 30),
     TimeSlice.mk (HM.mk 13 30) (HM.mk 15 0),
     TimeSlice.mk (HM.mk 21 0) (HM.mk 2 30)]

/-- Modelled from the spec: the symbol-keyed registry (spec section 3,
SessionRegistry): a mapping from case-sensitive string keys to sessions,
kept as an association list with unique keys. -/
structure SessionMgr where
  sessions : List (String × TradeSession)
deriving DecidableEq

/-- The number of registered symbols (spec 4.3 `sessions_count`). -/
def SessionMgr.sessions_count (m : SessionMgr) : Nat := m.sessions.length

/-- Modelled from the spec: exact-match, case-sensitive lookup; fails with
`SessionNotFound` when the symbol is absent (spec 4.3 `get_session`). -/
def SessionMgr.get_session (m : SessionMgr) (k : String) : Except SessErr TradeSession :=
  match m.sessions.find? (fun p => p.1 == k) with
  | some p => Except.ok p.2
  | none => Except.error SessErr.SessionNotFound

/-- Insert or overwrite one key in the association list: an existing key
keeps its position and gets the new session; a new key is appended. -/
def upsert (base : List (String × TradeSession)) (k : String) (v : TradeSession) :
    List (String × TradeSession) :=
  if base.any (fun p => p.1 == k) then
    base.map (fun p => if p.1 == k then (k, v) else p)
  else base ++ [(k, v)]

/-- Modelled from the spec: install each record of the source in turn,
building a normalized session per record; the whole load fails with
`MalformedRecord` on the first record whose slices fail normalization
(spec 4.3 `reload`). -/
def loadRecords : List (String × List TimeSlice) → List (String × TradeSession) →
    Except SessErr (List (String × TradeSession))
  | [], acc => Except.ok acc
  | r :: rs, acc =>
    match TradeSession.new r.2 with
    | Except.ok s => loadRecords rs (upsert acc r.1 s)
    | Except.error _ => Except.error SessErr.MalformedRecord

/-- Modelled from the spec: bulk reload with merge policy — `merge = true`
keeps the existing map as the base (new keys added, existing keys
overwritten, untouched keys preserved); `merge = false` clears prior state
before loading (spec 4.3 `reload`, section 3 lifecycle). -/
def SessionMgr.reload (m : SessionMgr) (src : List (String × List TimeSlice))
    (merge : Bool) : Except SessErr SessionMgr :=
  (loadRecords src (if merge then m.sessions else [])).map SessionMgr.mk

deriving instance DecidableEq for Except

/-! ### Basic facts about times, minute ranges and runs -/

theorem HM.toMin_ofMin (m : Nat) : (HM.ofMin m).toMin = m := by
  simp only [HM.ofMin, HM.toMin]
  omega

theorem HM.ofMin_valid {m : Nat} (h : m < 1440) : (HM.ofMin m).valid = true := by
  simp only [HM.ofMin, HM.valid, Bool.and_eq_true, decide_eq_true_eq]
  omega

theorem HM.valid_toMin_lt {t : HM} (h : t.valid = true) : t.toMin < 1440 := by
  simp only [HM.valid, Bool.and_eq_true, decide_eq_true_eq] at h
  simp only [HM.toMin]
  omega

theorem HM.toMin_inj {a b : HM} (ha : a.valid = true) (hb : b.valid = true)
    (h : a.toMin = b.toMin) : a = b := by
  cases a with
  | mk ah am =>
    cases b with
    | mk bh bm =>
      simp only [HM.valid, Bool.and_eq_true, decide_eq_true_eq] at ha hb
      simp only [HM.toMin] at h
      simp only [HM.mk.injEq]
      omega

theorem mem_minutesFrom {t a : Nat} : ∀ {n : Nat}, t ∈ minutesFrom a n ↔ a ≤ t ∧ t < a + n := by
  intro n
  induction n generalizing a with
  | zero => simp [minutesFrom]
  | succ n ih =>
    simp only [minutesFrom, List.mem_cons, ih]
    omega

theorem runLenAux_le (M : Nat → Bool) : ∀ (f a : Nat), runLenAux M a f ≤ f := by
  intro f
  induction f with
  | zero => intro a; simp [runLenAux]
  | succ f ih =>
    intro a
    simp only [runLenAux]
    split
    · exact Nat.succ_le_succ (ih (a+1))
    · exact Nat.zero_le _

theorem runLenAux_covered (M : Nat → Bool) :
    ∀ (f a i : Nat), i < runLenAux M a f → M ((a + i) % 1440) = true := by
  intro f
  induction f with
  | zero => intro a i h; simp [runLenAux] at h
  | succ f ih =>
    intro a i h
    simp only [runLenAux] at h
    by_cases hm : M (a % 1440) = true
    · rw [if_pos hm] at h
      cases i with
      | zero => simpa using hm
      | succ i =>
        have : (a + 1 + i) % 1440 = (a + (i + 1)) % 1440 := by omega
        have hi := ih (a+1) i (by omega)
        rwa [this] at hi
    · rw [if_neg hm] at h
      omega

theorem runLenAux_stop (M : Nat → Bool) :
    ∀ (f a : Nat), runLenAux M a f < f → M ((a + runLenAux M a f) % 1440) = false := by
  intro f
  induction f with
  | zero => intro a h; omega
  | succ f ih =>
    intro a h
    simp only [runLenAux] at h ⊢
    by_cases hm : M (a % 1440) = true
    · rw [if_pos hm] at h ⊢
      have h2 := ih (a+1) (by omega)
      have : (a + 1 + runLenAux M (a+1) f) % 1440 = (a + (runLenAux M (a+1) f + 1)) % 1440 := by
        omega
      rwa [this] at h2
    · rw [if_neg hm]
      simp only [Nat.add_zero]
      exact Bool.eq_false_iff.mpr hm

theorem runLenAux_lower (M : Nat → Bool) :
    ∀ (f a k : Nat), k < f → (∀ i, i ≤ k → M ((a + i) % 1440) = true) →
      k < runLenAux M a f := by
  intro f
  induction f with
  | zero => intro a k h _; omega
  | succ f ih =>
    intro a k hk hcov
    have hm : M (a % 1440) = true := by
      have := hcov 0 (Nat.zero_le _)
      simpa using this
    simp only [runLenAux, if_pos hm]
    cases k with
    | zero => omega
    | succ k =>
      have : k < runLenAux M (a+1) f := by
        apply ih (a+1) k (by omega)
        intro i hi
        have := hcov (i+1) (by omega)
        have he : (a + (i + 1)) % 1440 = (a + 1 + i) % 1440 := by omega
        rwa [he] at this
      omega

theorem runLenAux_congr {M M' : Nat → Bool} (h : ∀ u, u < 1440 → M u = M' u) :
    ∀ (f a : Nat), runLenAux M a f = runLenAux M' a f := by
  intro f
  induction f with
  | zero => intro a; rfl
  | succ f ih =>
    intro a
    simp only [runLenAux, h (a % 1440) (Nat.mod_lt _ (by omega)), ih (a+1)]

theorem allCovered_eq_true {M : Nat → Bool} (h : allCovered M = true) :
    ∀ t, t < 1440 → M t = true := by
  intro t ht
  simp only [allCovered, List.all_eq_true] at h
  exact h t (List.mem_range.mpr ht)

theorem allCovered_of_forall {M : Nat → Bool} (h : ∀ t, t < 1440 → M t = true) :
    allCovered M = true := by
  simp only [allCovered, List.all_eq_true]
  intro t ht
  exact h t (List.mem_range.mp ht)

theorem allCovered_congr {M M' : Nat → Bool} (h : ∀ u, u < 1440 → M u = M' u) :
    allCovered M = allCovered M' := by
  have hiff : allCovered M = true ↔ allCovered M' = true := by
    constructor
    · intro hM
      exact allCovered_of_forall fun t ht => (h t ht).symm.trans (allCovered_eq_true hM t ht)
    · intro hM
      exact allCovered_of_forall fun t ht => (h t ht).trans (allCovered_eq_true hM t ht)
  cases hM : allCovered M with
  | false =>
    cases hM' : allCovered M' with
    | false => rfl
    | true => rw [hM, hM'] at hiff; simp at hiff
  | true =>
    cases hM' : allCovered M' with
    | false => rw [hM, hM'] at hiff; simp at hiff
    | true => rfl

theorem runLen_lt_1440 {M : Nat → Bool} (hnf : allCovered M = false) (a : Nat) :
    runLen M a < 1440 := by
  by_contra hge
  have hle := runLenAux_le M 1440 a
  have heq : runLen M a = 1440 := by
    simp only [runLen] at hge ⊢
    omega
  have hall : ∀ t, t < 1440 → M t = true := by
    intro t ht
    have hi : ∃ i, i < 1440 ∧ (a + i) % 1440 = t := by
      refine ⟨(t + 1440 - a % 1440) % 1440, Nat.mod_lt _ (by omega), ?_⟩
      omega
    obtain ⟨i, hi1, hi2⟩ := hi
    have := runLenAux_covered M 1440 a i (by simp only [runLen] at heq; omega)
    rwa [hi2] at this
  rw [allCovered_of_forall hall] at hnf
  exact Bool.true_eq_false.mp hnf

theorem backLenAux_le (M : Nat → Bool) : ∀ (f t : Nat), backLenAux M t f ≤ f := by
  intro f
  induction f with
  | zero => intro t; simp [backLenAux]
  | succ f ih =>
    intro t
    simp only [backLenAux]
    split
    · exact Nat.succ_le_succ (ih _)
    · exact Nat.zero_le _

theorem backLenAux_covered (M : Nat → Bool) :
    ∀ (f t j : Nat), j < backLenAux M t f → M ((t + 1439 * (j + 1)) % 1440) = true := by
  intro f
  induction f with
  | zero => intro t j h; simp [backLenAux] at h
  | succ f ih =>
    intro t j h
    simp only [backLenAux] at h
    by_cases hm : M ((t + 1439) % 1440) = true
    · rw [if_pos hm] at h
      cases j with
      | zero => simpa using hm
      | succ j =>
        have hi := ih ((t + 1439) % 1440) j (by omega)
        have he : ((t + 1439) % 1440 + 1439 * (j + 1)) % 1440 =
            (t + 1439 * (j + 1 + 1)) % 1440 := by omega
        rwa [he] at hi
    · rw [if_neg hm] at h
      omega

theorem backLenAux_stop (M : Nat → Bool) :
    ∀ (f t : Nat), backLenAux M t f < f →
      M ((t + 1439 * (backLenAux M t f + 1)) % 1440) = false := by
  intro f
  induction f with
  | zero => intro t h; omega
  | succ f ih =>
    intro t h
    simp only [backLenAux] at h ⊢
    by_cases hm : M ((t + 1439) % 1440) = true
    · rw [if_pos hm] at h ⊢
      have h2 := ih ((t + 1439) % 1440) (by omega)
      have he : ((t + 1439) % 1440 + 1439 * (backLenAux M ((t + 1439) % 1440) f + 1)) % 1440 =
          (t + 1439 * (backLenAux M ((t + 1439) % 1440) f + 1 + 1)) % 1440 := by omega
      rwa [he] at h2
    · rw [if_neg hm]
      simpa using Bool.eq_false_iff.mpr hm

theorem backLen_lt_1440 {M : Nat → Bool} (hnf : allCovered M = false) (t : Nat) :
    backLen M t < 1440 := by
  by_contra hge
  have hle := backLenAux_le M 1440 t
  have heq : backLen M t = 1440 := by
    simp only [backLen] at hge ⊢
    omega
  have hall : ∀ u, u < 1440 → M u = true := by
    intro u hu
    have hj : ∃ j, j < 1440 ∧ (t + 1439 * (j + 1)) % 1440 = u := by
      refine ⟨(t + 2879 - u) % 1440, Nat.mod_lt _ (by omega), ?_⟩
      omega
    obtain ⟨j, hj1, hj2⟩ := hj
    have := backLenAux_covered M 1440 t j (by simp only [backLen] at heq; omega)
    rwa [hj2] at this
  rw [allCovered_of_forall hall] at hnf
  exact Bool.true_eq_false.mp hnf

/-! ### Properties of run slices and reconstruction -/

theorem coverList_eq_true {l : List TimeSlice} {t : Nat} :
    coverList l t = true ↔ ∃ s ∈ l, s.containsMin t false = true := by
  simp [coverList, List.any_eq_true]

theorem mem_reconstruct {M : Nat → Bool} {s : TimeSlice} :
    s ∈ reconstruct M ↔ ∃ a, a < 1440 ∧ isStart M a = true ∧ s = mkRunSlice M a := by
  simp only [reconstruct, List.mem_map, List.mem_filter, List.mem_range]
  constructor
  · rintro ⟨a, ⟨har, hst⟩, rfl⟩
    exact ⟨a, har, hst, rfl⟩
  · rintro ⟨a, har, hst, rfl⟩
    exact ⟨a, ⟨har, hst⟩, rfl⟩

theorem isStart_covered {M : Nat → Bool} {a : Nat} (h : isStart M a = true) : M a = true := by
  simp only [isStart, Bool.and_eq_true] at h
  exact h.1

theorem isStart_prev {M : Nat → Bool} {a : Nat} (h : isStart M a = true) :
    M ((a + 1439) % 1440) = false := by
  simp only [isStart, Bool.and_eq_true, Bool.not_eq_true'] at h
  exact h.2

theorem runLen_pos {M : Nat → Bool} {a : Nat} (ha : a < 1440) (h : M a = true) :
    1 ≤ runLen M a := by
  have := runLenAux_lower M 1440 a 0 (by omega) (by
    intro i hi
    have hi0 : i = 0 := by omega
    subst hi0
    have : (a + 0) % 1440 = a := by omega
    rwa [this])
  simpa [runLen] using this

theorem mkRunSlice_smin {M : Nat → Bool} {a : Nat} : (mkRunSlice M a).smin = a := by
  simp only [mkRunSlice, TimeSlice.smin, HM.toMin_ofMin]

theorem mkRunSlice_emin {M : Nat → Bool} {a : Nat} :
    (mkRunSlice M a).emin = (a + runLen M a) % 1440 := by
  simp only [mkRunSlice, TimeSlice.emin, HM.toMin_ofMin]

theorem mkRunSlice_containsMin {M : Nat → Bool} {a t : Nat} (ha : a < 1440)
    (h1 : 1 ≤ runLen M a) (h2 : runLen M a ≤ 1439) (ht : t < 1440) :
    ((mkRunSlice M a).containsMin t false = true ↔
      ∃ i, i < runLen M a ∧ t = (a + i) % 1440) := by
  simp only [TimeSlice.containsMin, mkRunSlice_smin, mkRunSlice_emin, Bool.false_and,
    Bool.or_false]
  by_cases hc : a + runLen M a < 1440
  · have hmod : (a + runLen M a) % 1440 = a + runLen M a := Nat.mod_eq_of_lt hc
    rw [hmod, if_pos (by omega)]
    simp only [Bool.and_eq_true, decide_eq_true_eq]
    constructor
    · intro hin
      exact ⟨t - a, by omega, by omega⟩
    · rintro ⟨i, hi, rfl⟩
      omega
  · have hmod : (a + runLen M a) % 1440 = a + runLen M a - 1440 := by omega
    rw [hmod, if_neg (by omega)]
    simp only [Bool.or_eq_true, decide_eq_true_eq]
    constructor
    · intro hin
      rcases hin with hin | hin
      · exact ⟨t - a, by omega, by omega⟩
      · exact ⟨t + 1440 - a, by omega, by omega⟩
    · rintro ⟨i, hi, rfl⟩
      omega

theorem mkRunSlice_isWrap {M : Nat → Bool} {a : Nat} (ha : a < 1440)
    (h1 : 1 ≤ runLen M a) (h2 : runLen M a ≤ 1439) :
    ((mkRunSlice M a).isWrap = true ↔ 1440 ≤ a + runLen M a) := by
  simp only [TimeSlice.isWrap, mkRunSlice_smin, mkRunSlice_emin, decide_eq_true_eq]
  omega

theorem mkRunSlice_ok {M : Nat → Bool} {a : Nat} (ha : a < 1440)
    (h1 : 1 ≤ runLen M a) (h2 : runLen M a ≤ 1439) :
    (mkRunSlice M a).ok = true := by
  simp only [TimeSlice.ok, mkRunSlice, Bool.and_eq_true, bne_iff_ne]
  refine ⟨⟨HM.ofMin_valid ha, HM.ofMin_valid (Nat.mod_lt _ (by omega))⟩, ?_⟩
  intro hcontra
  have := congrArg HM.toMin hcontra
  rw [HM.toMin_ofMin, HM.toMin_ofMin] at this
  omega

theorem reconstruct_sound {M : Nat → Bool} (hnf : allCovered M = false) {t : Nat}
    (ht : t < 1440) (h : coverList (reconstruct M) t = true) : M t = true := by
  rw [coverList_eq_true] at h
  obtain ⟨s, hs, hc⟩ := h
  rw [mem_reconstruct] at hs
  obtain ⟨a, ha, hst, rfl⟩ := hs
  have h1 : 1 ≤ runLen M a := runLen_pos ha (isStart_covered hst)
  have h2 : runLen M a ≤ 1439 := by have := runLen_lt_1440 hnf a; omega
  rw [mkRunSlice_containsMin ha h1 h2 ht] at hc
  obtain ⟨i, hi, rfl⟩ := hc
  exact runLenAux_covered M 1440 a i (by simpa [runLen] using hi)

theorem reconstruct_complete {M : Nat → Bool} (hnf : allCovered M = false) {t : Nat}
    (ht : t < 1440) (hM : M t = true) : coverList (reconstruct M) t = true := by
  set b := backLen M t with hb
  have hble : b ≤ 1439 := by have := backLen_lt_1440 hnf t; omega
  set a := (t + 1440 - b) % 1440 with hadef
  have ha : a < 1440 := Nat.mod_lt _ (by omega)
  have hcov : ∀ i, i ≤ b → M ((a + i) % 1440) = true := by
    intro i hi
    by_cases hib : i = b
    · subst hib
      have he : (a + b) % 1440 = t := by omega
      rwa [he]
    · have hbc := backLenAux_covered M 1440 t (b - 1 - i) (by
        simp only [backLen] at hb
        omega)
      have he : (t + 1439 * (b - 1 - i + 1)) % 1440 = (a + i) % 1440 := by omega
      rwa [he] at hbc
  have hprev : M ((a + 1439) % 1440) = false := by
    have hstop := backLenAux_stop M 1440 t (by
      simp only [backLen] at hb
      omega)
    have he : (t + 1439 * (backLenAux M t 1440 + 1)) % 1440 = (a + 1439) % 1440 := by
      simp only [backLen] at hb
      omega
    rwa [he] at hstop
  have hMa : M a = true := by
    have h0 := hcov 0 (Nat.zero_le _)
    have he : (a + 0) % 1440 = a := by omega
    rwa [he] at h0
  have hstart : isStart M a = true := by
    simp [isStart, hMa, hprev]
  have hlow : b < runLen M a := by
    have := runLenAux_lower M 1440 a b (by omega) hcov
    simpa [runLen] using this
  have h1 : 1 ≤ runLen M a := by omega
  have h2 : runLen M a ≤ 1439 := by have := runLen_lt_1440 hnf a; omega
  rw [coverList_eq_true]
  refine ⟨mkRunSlice M a, ?_, ?_⟩
  · rw [mem_reconstruct]
    exact ⟨a, ha, hstart, rfl⟩
  · rw [mkRunSlice_containsMin ha h1 h2 ht]
    exact ⟨b, hlow, by omega⟩

theorem coverList_reconstruct {M : Nat → Bool} (hnf : allCovered M = false) {t : Nat}
    (ht : t < 1440) : coverList (reconstruct M) t = M t := by
  cases hM : M t with
  | true => exact reconstruct_complete hnf ht hM
  | false =>
    cases hcl : coverList (reconstruct M) t with
    | false => rfl
    | true =>
      exact absurd (reconstruct_sound hnf ht hcl) (by rw [hM]; simp)

/-! ### Congruence of reconstruction in the membership function -/

theorem isStart_congr {M M' : Nat → Bool} (h : ∀ u, u < 1440 → M u = M' u)
    {a : Nat} (ha : a < 1440) : isStart M a = isStart M' a := by
  simp only [isStart, h a ha, h ((a + 1439) % 1440) (Nat.mod_lt _ (by omega))]

theorem runLen_congr {M M' : Nat → Bool} (h : ∀ u, u < 1440 → M u = M' u) (a : Nat) :
    runLen M a = runLen M' a := runLenAux_congr h 1440 a

theorem mkRunSlice_congr {M M' : Nat → Bool} (h : ∀ u, u < 1440 → M u = M' u) (a : Nat) :
    mkRunSlice M a = mkRunSlice M' a := by
  simp only [mkRunSlice, runLen_congr h a]

theorem reconstruct_congr {M M' : Nat → Bool} (h : ∀ u, u < 1440 → M u = M' u) :
    reconstruct M = reconstruct M' := by
  simp only [reconstruct]
  rw [List.filter_congr (fun a ha => isStart_congr h (List.mem_range.mp ha))]
  exact List.map_congr_left (fun a _ => mkRunSlice_congr h a)

theorem reconstructE_congr {M M' : Nat → Bool} (h : ∀ u, u < 1440 → M u = M' u) :
    reconstructE M = reconstructE M' := by
  simp only [reconstructE, allCovered_congr h, reconstruct_congr h]

/-! ### At most one reconstructed slice wraps midnight -/

theorem runLen_tail_covered {M : Nat → Bool} {a : Nat} (ha : a < 1440)
    (hw : 1440 ≤ a + runLen M a) :
    ∀ u, a ≤ u → u < 1440 → M u = true := by
  intro u h1 h2
  have hi := runLenAux_covered M 1440 a (u - a) (by
    simp only [runLen] at hw
    omega)
  have he : (a + (u - a)) % 1440 = u := by omega
  rwa [he] at hi

theorem no_start_in_tail {M : Nat → Bool} {a b : Nat} (ha : a < 1440) (hb : b < 1440)
    (hw : 1440 ≤ a + runLen M a) (hab : a < b) (hsb : isStart M b = true) : False := by
  have hcov : M (b - 1) = true := runLen_tail_covered ha hw (b - 1) (by omega) (by omega)
  have hp := isStart_prev hsb
  have he : (b + 1439) % 1440 = b - 1 := by omega
  rw [he, hcov] at hp
  exact Bool.true_eq_false.mp hp

theorem wrap_start_unique {M : Nat → Bool} (hnf : allCovered M = false)
    {a b : Nat} (ha : a < 1440) (hb : b < 1440)
    (hsa : isStart M a = true) (hsb : isStart M b = true)
    (hwa : (mkRunSlice M a).isWrap = true) (hwb : (mkRunSlice M b).isWrap = true) :
    a = b := by
  have h1a : 1 ≤ runLen M a := runLen_pos ha (isStart_covered hsa)
  have h2a : runLen M a ≤ 1439 := by have := runLen_lt_1440 hnf a; omega
  have h1b : 1 ≤ runLen M b := runLen_pos hb (isStart_covered hsb)
  have h2b : runLen M b ≤ 1439 := by have := runLen_lt_1440 hnf b; omega
  rw [mkRunSlice_isWrap ha h1a h2a] at hwa
  rw [mkRunSlice_isWrap hb h1b h2b] at hwb
  rcases Nat.lt_trichotomy a b with hlt | heq | hgt
  · exact absurd (no_start_in_tail ha hb hwa hlt hsb) id
  · exact heq
  · exact absurd (no_start_in_tail hb ha hwb hgt hsa) id

theorem filter_map_length_le_one {l : List Nat} {f : Nat → TimeSlice} {p : TimeSlice → Bool}
    (hnd : l.Nodup)
    (huniq : ∀ a ∈ l, ∀ b ∈ l, p (f a) = true → p (f b) = true → a = b) :
    ((l.map f).filter p).length ≤ 1 := by
  induction l with
  | nil => simp
  | cons a l ih =>
    rcases List.nodup_cons.mp hnd with ⟨hna, hndl⟩
    simp only [List.map_cons]
    by_cases hpa : p (f a) = true
    · rw [List.filter_cons_of_pos hpa]
      have hrest : (l.map f).filter p = [] := by
        rw [List.filter_eq_nil_iff]
        intro x hx
        rw [List.mem_map] at hx
        obtain ⟨b, hbl, rfl⟩ := hx
        intro hpb
        have hab := huniq a (List.mem_cons_self a l) b (List.mem_cons_of_mem a hbl) hpa hpb
        exact hna (hab ▸ hbl)
      rw [hrest]
      simp
    · rw [List.filter_cons_of_neg hpa]
      exact ih hndl
        (fun x hx y hy => huniq x (List.mem_cons_of_mem a hx) y (List.mem_cons_of_mem a hy))

theorem reconstruct_wrap_count {M : Nat → Bool} (hnf : allCovered M = false) :
    ((reconstruct M).filter TimeSlice.isWrap).length ≤ 1 := by
  simp only [reconstruct]
  apply filter_map_length_le_one ((List.nodup_range 1440).filter (isStart M))
  intro a hamem b hbmem hpa hpb
  rw [List.mem_filter, List.mem_range] at hamem hbmem
  exact wrap_start_unique hnf hamem.1 hbmem.1 hamem.2 hbmem.2 hpa hpb

/-! ### Bridging slice membership, minute lists and normalization -/

theorem bool_eq_of_iff {x y : Bool} (h : x = true ↔ y = true) : x = y := by
  cases x <;> cases y <;> simp_all

theorem TimeSlice.ok_parts {s : TimeSlice} (hok : s.ok = true) :
    s.start.valid = true ∧ s.stop.valid = true ∧ s.start ≠ s.stop := by
  simp only [TimeSlice.ok, Bool.and_eq_true, bne_iff_ne] at hok
  exact ⟨hok.1.1, hok.1.2, hok.2⟩

theorem containsMin_iff_mem_minutesM {s : TimeSlice} (hok : s.ok = true) {t : Nat}
    (ht : t < 1440) : (s.containsMin t false = true ↔ t ∈ s.minutesM) := by
  obtain ⟨hsv, hev, hne⟩ := TimeSlice.ok_parts hok
  have hs : s.smin < 1440 := HM.valid_toMin_lt hsv
  have he : s.emin < 1440 := HM.valid_toMin_lt hev
  have hne2 : s.smin ≠ s.emin := fun hx => hne (HM.toMin_inj hsv hev hx)
  simp only [TimeSlice.containsMin, TimeSlice.minutesM, Bool.false_and, Bool.or_false]
  by_cases hlt : s.smin < s.emin
  · rw [if_pos hlt, if_pos hlt]
    simp only [Bool.and_eq_true, decide_eq_true_eq, mem_minutesFrom]
    omega
  · rw [if_neg hlt, if_neg hlt]
    simp only [Bool.or_eq_true, decide_eq_true_eq, List.mem_append, mem_minutesFrom]
    omega

theorem mem_minutesCat {l : List TimeSlice} {x : HM} :
    x ∈ minutesCat l ↔ ∃ s ∈ l, x ∈ s.minutes := by
  induction l with
  | nil => simp [minutesCat]
  | cons s rest ih =>
    simp only [minutesCat, List.mem_append, ih, List.mem_cons]
    constructor
    · rintro (hx | ⟨u, hu, hxu⟩)
      · exact ⟨s, Or.inl rfl, hx⟩
      · exact ⟨u, Or.inr hu, hxu⟩
    · rintro ⟨u, hu | hu, hxu⟩
      · exact Or.inl (hu ▸ hxu)
      · exact Or.inr ⟨u, hu, hxu⟩

theorem minutes_list_cover {S : TradeSession} (hok : ∀ s ∈ S.slices, s.ok = true)
    {t : Nat} (ht : t < 1440) :
    (S.minutes_list.any (fun x => x.toMin == t)) = coverList S.slices t := by
  apply bool_eq_of_iff
  rw [List.any_eq_true, coverList_eq_true]
  constructor
  · rintro ⟨x, hx, hxt⟩
    rw [TradeSession.minutes_list, mem_minutesCat] at hx
    obtain ⟨s, hsl, hxs⟩ := hx
    rw [TimeSlice.minutes, List.mem_map] at hxs
    obtain ⟨m, hm, rfl⟩ := hxs
    rw [beq_iff_eq, HM.toMin_ofMin] at hxt
    subst hxt
    exact ⟨s, hsl, (containsMin_iff_mem_minutesM (hok s hsl) ht).mpr hm⟩
  · rintro ⟨s, hsl, hc⟩
    have hm := (containsMin_iff_mem_minutesM (hok s hsl) ht).mp hc
    refine ⟨HM.ofMin t, ?_, by rw [beq_iff_eq, HM.toMin_ofMin]⟩
    rw [TradeSession.minutes_list, mem_minutesCat]
    refine ⟨s, hsl, ?_⟩
    rw [TimeSlice.minutes, List.mem_map]
    exact ⟨t, hm, rfl⟩

theorem reconstruct_all_ok {M : Nat → Bool} (hnf : allCovered M = false) :
    ∀ s ∈ reconstruct M, s.ok = true := by
  intro s hs
  rw [mem_reconstruct] at hs
  obtain ⟨a, ha, hst, rfl⟩ := hs
  exact mkRunSlice_ok ha (runLen_pos ha (isStart_covered hst))
    (by have := runLen_lt_1440 hnf a; omega)

theorem post_fix_ok_iff {S S' : TradeSession} :
    (S.post_fix = Except.ok S' ↔
      (S.slices.all TimeSlice.ok = true ∧
       ((S.slices.filter TimeSlice.isWrap).dedup).length < 2 ∧
       allCovered (coverList S.slices) = false ∧
       S' = TradeSession.mk (reconstruct (coverList S.slices)))) := by
  simp only [TradeSession.post_fix]
  by_cases h1 : S.slices.all TimeSlice.ok = true
  · rw [if_neg (by simp [h1])]
    by_cases h2 : 2 ≤ ((S.slices.filter TimeSlice.isWrap).dedup).length
    · rw [if_pos h2]
      constructor
      · intro h
        exact Except.noConfusion h
      · rintro ⟨_, hlt, _, _⟩
        omega
    · rw [if_neg h2]
      simp only [reconstructE]
      by_cases h3 : allCovered (coverList S.slices) = true
      · rw [if_pos h3]
        constructor
        · intro h
          simp only [Except.map] at h
          exact Except.noConfusion h
        · rintro ⟨_, _, hnf, _⟩
          rw [h3] at hnf
          exact absurd hnf (by simp)
      · rw [if_neg h3]
        simp only [Except.map, Except.ok.injEq]
        constructor
        · intro h
          exact ⟨h1, by omega, Bool.eq_false_iff.mpr h3, h.symm⟩
        · rintro ⟨_, _, _, hS⟩
          exact hS.symm
  · rw [if_pos (by simp [Bool.eq_false_iff.mpr h1])]
    constructor
    · intro h
      exact Except.noConfusion h
    · rintro ⟨ha, _, _, _⟩
      exact absurd ha h1

/-! ### Consequences for normalized sessions -/

theorem normalized_slices_ok {S S' : TradeSession} (h : S.post_fix = Except.ok S') :
    ∀ s ∈ S'.slices, s.ok = true := by
  obtain ⟨_, _, hnf, hS⟩ := post_fix_ok_iff.mp h
  subst hS
  exact reconstruct_all_ok hnf

theorem normalized_nonfull {S S' : TradeSession} (h : S.post_fix = Except.ok S') :
    allCovered (coverList S'.slices) = false := by
  obtain ⟨_, _, hnf, hS⟩ := post_fix_ok_iff.mp h
  subst hS
  rw [allCovered_congr (fun u hu => coverList_reconstruct hnf hu)]
  exact hnf

theorem post_fix_idem_general {S S' : TradeSession} (h : S.post_fix = Except.ok S') :
    S'.post_fix = Except.ok S' := by
  obtain ⟨hallok, hwrap, hnf, hS⟩ := post_fix_ok_iff.mp h
  rw [post_fix_ok_iff]
  have hcong : ∀ u, u < 1440 → coverList S'.slices u = coverList S.slices u := by
    intro u hu
    rw [hS]
    exact coverList_reconstruct hnf hu
  refine ⟨?_, ?_, ?_, ?_⟩
  · rw [List.all_eq_true]
    intro s hs
    rw [hS] at hs
    exact reconstruct_all_ok hnf s hs
  · have hle : (S'.slices.filter TimeSlice.isWrap).length ≤ 1 := by
      rw [hS]
      exact reconstruct_wrap_count hnf
    have hd := (List.dedup_sublist (S'.slices.filter TimeSlice.isWrap)).length_le
    omega
  · rw [allCovered_congr hcong]
    exact hnf
  · rw [reconstruct_congr hcong]
    exact hS

theorem from_minutes_minutes_list {S S' : TradeSession} (h : S.post_fix = Except.ok S') :
    TradeSession.from_minutes S'.minutes_list = Except.ok S' := by
  have hidem := post_fix_idem_general h
  obtain ⟨hallok, hwrap, hnf, hS⟩ := post_fix_ok_iff.mp hidem
  have hok : ∀ s ∈ S'.slices, s.ok = true := by
    rw [List.all_eq_true] at hallok
    exact hallok
  have hcov : ∀ u, u < 1440 →
      (S'.minutes_list.any (fun x => x.toMin == u)) = coverList S'.slices u :=
    fun u hu => minutes_list_cover hok hu
  simp only [TradeSession.from_minutes]
  rw [reconstructE_congr hcov]
  simp only [reconstructE]
  rw [if_neg (by rw [hnf]; simp)]
  simp only [Except.map, Except.ok.injEq]
  exact hS.symm

theorem containsMin_inc (s : TimeSlice) (t : Nat) (b : Bool) :
    s.containsMin t b = (s.containsMin t false || (b && (t == s.emin))) := by
  simp only [TimeSlice.containsMin]
  by_cases hlt : s.smin < s.emin
  · rw [if_pos hlt, if_pos hlt]
    simp [Bool.false_and, Bool.or_false]
  · rw [if_neg hlt, if_neg hlt]
    simp [Bool.false_and, Bool.or_false]

theorem in_session_false_flag (S : TradeSession) (t : HM) :
    S.in_session t false = coverList S.slices t.toMin := rfl

theorem in_session_false_of {S : TradeSession} {t : HM} {b : Bool}
    (hcov : coverList S.slices t.toMin = false)
    (hend : ∀ s ∈ S.slices, t.toMin ≠ s.emin) :
    S.in_session t b = false := by
  rw [Bool.eq_false_iff]
  intro hin
  simp only [TradeSession.in_session, List.any_eq_true] at hin
  obtain ⟨s, hs, hc⟩ := hin
  rw [TimeSlice.contains, containsMin_inc] at hc
  rw [Bool.or_eq_true] at hc
  rcases hc with hc2 | hc2
  · have hcl : coverList S.slices t.toMin = true := coverList_eq_true.mpr ⟨s, hs, hc2⟩
    rw [hcov] at hcl
    exact absurd hcl (by simp)
  · rw [Bool.and_eq_true] at hc2
    rcases hc2 with ⟨_, he⟩
    exact hend s hs (by rwa [beq_iff_eq] at he)

theorem normalized_slice_end {S S' : TradeSession} (h : S.post_fix = Except.ok S')
    {sl : TimeSlice} (hmem : sl ∈ S'.slices) :
    coverList S'.slices sl.emin = false ∧
    coverList S'.slices ((sl.emin + 1439) % 1440) = true := by
  obtain ⟨_, _, hnf, hS⟩ := post_fix_ok_iff.mp h
  have hcong : ∀ u, u < 1440 → coverList S'.slices u = coverList S.slices u := by
    intro u hu
    rw [hS]
    exact coverList_reconstruct hnf hu
  have hmem2 : sl ∈ reconstruct (coverList S.slices) := by
    rw [hS] at hmem
    exact hmem
  rw [mem_reconstruct] at hmem2
  obtain ⟨a, ha, hst, rfl⟩ := hmem2
  have h1 : 1 ≤ runLen (coverList S.slices) a := runLen_pos ha (isStart_covered hst)
  have h2 : runLen (coverList S.slices) a ≤ 1439 := by
    have := runLen_lt_1440 hnf a
    omega
  rw [mkRunSlice_emin]
  constructor
  · rw [hcong _ (Nat.mod_lt _ (by omega))]
    have hstop := runLenAux_stop (coverList S.slices) 1440 a (by
      simp only [runLen] at h2
      omega)
    simpa [runLen] using hstop
  · rw [hcong _ (Nat.mod_lt _ (by omega))]
    have hc := runLenAux_covered (coverList S.slices) 1440 a (runLen (coverList S.slices) a - 1)
      (by simp only [runLen] at h1 ⊢; omega)
    have he : (a + (runLen (coverList S.slices) a - 1)) % 1440 =
        (((a + runLen (coverList S.slices) a) % 1440) + 1439) % 1440 := by omega
    rwa [he] at hc

/-! ### Claim theorems -/

/-- C1: round-trip law — for every normalized TradeSession (a successful
result of `post_fix`), constructing a session from its serialized
`minutes_list` reproduces it exactly, hence an equivalent session: the same
`in_session` answer for every minute of the day and every `inclusive_end`
flag. -/
theorem c1_round_trip (S0 S : TradeSession) (h : S0.post_fix = Except.ok S) :
    TradeSession.from_minutes S.minutes_list = Except.ok S ∧
    (∀ S2, TradeSession.from_minutes S.minutes_list = Except.ok S2 →
      ∀ (t : HM) (b : Bool), S2.in_session t b = S.in_session t b) := by
  refine ⟨from_minutes_minutes_list h, ?_⟩
  intro S2 h2 t b
  rw [from_minutes_minutes_list h] at h2
  injection h2 with h3
  subst h3
  rfl

/-- Witness for C1 at the concrete session of one slice 9:00→10:00, which is
a fixed point of normalization. -/
theorem c1_round_trip_witness :
    TradeSession.from_minutes
        (TradeSession.mk [TimeSlice.mk (HM.mk 9 0) (HM.mk 10 0)]).minutes_list =
      Except.ok (TradeSession.mk [TimeSlice.mk (HM.mk 9 0) (HM.mk 10 0)]) :=
  (c1_round_trip (TradeSession.mk [TimeSlice.mk (HM.mk 9 0) (HM.mk 10 0)])
    (TradeSession.mk [TimeSlice.mk (HM.mk 9 0) (HM.mk 10 0)]) (by decide)).1

/-- C8: `post_fix` is idempotent — on any session on which `post_fix` has
already succeeded, running `post_fix` again succeeds and is a no-op: the
slice sequence, the derived minute-membership index and every `in_session`
answer are unchanged. -/
theorem c8_post_fix_idempotent (S0 S : TradeSession) (h : S0.post_fix = Except.ok S) :
    S.post_fix = Except.ok S ∧
    (∀ S2, S.post_fix = Except.ok S2 →
      S2.slices = S.slices ∧ (∀ u, S2.minuteIndex u = S.minuteIndex u) ∧
      (∀ (t : HM) (b : Bool), S2.in_session t b = S.in_session t b)) := by
  refine ⟨post_fix_idem_general h, ?_⟩
  intro S2 h2
  rw [post_fix_idem_general h] at h2
  injection h2 with h3
  subst h3
  exact ⟨rfl, fun u => rfl, fun t b => rfl⟩

/-- Witness for C8 at the concrete session of one slice 13:30→15:00. -/
theorem c8_post_fix_idempotent_witness :
    (TradeSession.mk [TimeSlice.mk (HM.mk 13 30) (HM.mk 15 0)]).post_fix =
      Except.ok (TradeSession.mk [TimeSlice.mk (HM.mk 13 30) (HM.mk 15 0)]) :=
  (c8_post_fix_idempotent (TradeSession.mk [TimeSlice.mk (HM.mk 13 30) (HM.mk 15 0)])
    (TradeSession.mk [TimeSlice.mk (HM.mk 13 30) (HM.mk 15 0)]) (by decide)).1

/-- C7: the empty session — constructing from an empty slice list succeeds
with no slices, `in_session` is false for every time-of-day instant and both
`inclusive_end` flags, and `minutes_list` is empty. -/
theorem c7_empty_session :
    TradeSession.new [] = Except.ok (TradeSession.mk []) ∧
    (∀ (t : HM) (b : Bool), (TradeSession.mk []).in_session t b = false) ∧
    (TradeSession.mk []).minutes_list = [] := by
  refine ⟨by decide, ?_, rfl⟩
  intro t b
  rfl

/-- C3: the built-in full session reports `in_session(09:30, inclusive_end =
true)` true and `in_session(11:40, inclusive_end = true)` false. -/
theorem c3_full_session_sample :
    TradeSession.new_full_session.in_session (HM.mk 9 30) true = true ∧
    TradeSession.new_full_session.in_session (HM.mk 11 40) true = false := by
  decide

/-- C2: the example's CTP session (slices 8:40→15:30 and the wrapping
20:40→2:31, then normalized; the wrap covers `[20:40, 24:00) ∪ [00:00,
02:31)`) answers `in_session` true at 23:59, 00:00 and 02:30 under both
`inclusive_end` flags, false at 20:39 under both flags, and false at the
excluded upper boundary 02:31 under the half-open reading
(`inclusive_end = false`). -/
theorem c2_wrap_queries :
    ((((TradeSession.mk []).add_slice 8 40 15 30).add_slice 20 40 2 31).post_fix =
      Except.ok (TradeSession.mk
        [TimeSlice.mk (HM.mk 8 40) (HM.mk 15 30),
         TimeSlice.mk (HM.mk 20 40) (HM.mk 2 31)])) ∧
    (TradeSession.mk
        [TimeSlice.mk (HM.mk 8 40) (HM.mk 15 30),
         TimeSlice.mk (HM.mk 20 40) (HM.mk 2 31)]).in_session (HM.mk 23 59) false = true ∧
    (TradeSession.mk
        [TimeSlice.mk (HM.mk 8 40) (HM.mk 15 30),
         TimeSlice.mk (HM.mk 20 40) (HM.mk 2 31)]).in_session (HM.mk 23 59) true = true ∧
    (TradeSession.mk
        [TimeSlice.mk (HM.mk 8 40) (HM.mk 15 30),
         TimeSlice.mk (HM.mk 20 40) (HM.mk 2 31)]).in_session (HM.mk 0 0) false = true ∧
    (TradeSession.mk
        [TimeSlice.mk (HM.mk 8 40) (HM.mk 15 30),
         TimeSlice.mk (HM.mk 20 40) (HM.mk 2 31)]).in_session (HM.mk 0 0) true = true ∧
    (TradeSession.mk
        [TimeSlice.mk (HM.mk 8 40) (HM.mk 15 30),
         TimeSlice.mk (HM.mk 20 40) (HM.mk 2 31)]).in_session (HM.mk 2 30) false = true ∧
    (TradeSession.mk
        [TimeSlice.mk (HM.mk 8 40) (HM.mk 15 30),
         TimeSlice.mk (HM.mk 20 40) (HM.mk 2 31)]).in_session (HM.mk 2 30) true = true ∧
    (TradeSession.mk
        [TimeSlice.mk (HM.mk 8 40) (HM.mk 15 30),
         TimeSlice.mk (HM.mk 20 40) (HM.mk 2 31)]).in_session (HM.mk 2 31) false = false ∧
    (TradeSession.mk
        [TimeSlice.mk (HM.mk 8 40) (HM.mk 15 30),
         TimeSlice.mk (HM.mk 20 40) (HM.mk 2 31)]).in_session (HM.mk 20 39) false = false ∧
    (TradeSession.mk
        [TimeSlice.mk (HM.mk 8 40) (HM.mk 15 30),
         TimeSlice.mk (HM.mk 20 40) (HM.mk 2 31)]).in_session (HM.mk 20 39) true = false := by
  decide

/-- C4 counterexample: the normalized session with slices 9:00→11:30 and
11:31→12:00 contains a slice whose upper boundary is 11:30, yet
`in_session(11:31, inclusive_end = false)` is true, refuting the claim's
unconditional clause that `in_session(11:31, b)` is false for any session
containing a slice ending at 11:30. -/
theorem c4_counterexample :
    ((TradeSession.mk [TimeSlice.mk (HM.mk 9 0) (HM.mk 11 30),
        TimeSlice.mk (HM.mk 11 31) (HM.mk 12 0)]).post_fix =
      Except.ok (TradeSession.mk [TimeSlice.mk (HM.mk 9 0) (HM.mk 11 30),
        TimeSlice.mk (HM.mk 11 31) (HM.mk 12 0)])) ∧
    TimeSlice.mk (HM.mk 9 0) (HM.mk 11 30) ∈
      (TradeSession.mk [TimeSlice.mk (HM.mk 9 0) (HM.mk 11 30),
        TimeSlice.mk (HM.mk 11 31) (HM.mk 12 0)]).slices ∧
    (TradeSession.mk [TimeSlice.mk (HM.mk 9 0) (HM.mk 11 30),
        TimeSlice.mk (HM.mk 11 31) (HM.mk 12 0)]).in_session (HM.mk 11 31) false = true := by
  decide

/-- C4 (amended): in a normalized session containing a slice with upper
boundary 11:30, `in_session(11:30, inclusive_end = false)` is false and
`in_session(11:30, inclusive_end = true)` is true; and — provided no slice
of the session covers the minute 11:31, the hypothesis the counterexample
shows is needed — `in_session(11:31, b)` is false for both flags. -/
theorem c4_boundary_inclusivity (S0 S : TradeSession) (sl : TimeSlice)
    (h : S0.post_fix = Except.ok S) (hmem : sl ∈ S.slices)
    (hend : sl.stop = HM.mk 11 30) :
    S.in_session (HM.mk 11 30) false = false ∧
    S.in_session (HM.mk 11 30) true = true ∧
    (coverList S.slices 691 = false →
      ∀ b, S.in_session (HM.mk 11 31) b = false) := by
  have hemin : sl.emin = 690 := by
    rw [TimeSlice.emin, hend]
    rfl
  have hse := normalized_slice_end h hmem
  rw [hemin] at hse
  refine ⟨?_, ?_, ?_⟩
  · have hflag : S.in_session (HM.mk 11 30) false = coverList S.slices 690 := rfl
    rw [hflag]
    exact hse.1
  · refine List.any_eq_true.mpr ⟨sl, hmem, ?_⟩
    rw [TimeSlice.contains, containsMin_inc, hemin]
    simp [HM.toMin]
  · intro hcov b
    apply in_session_false_of
    · exact hcov
    · intro s2 hs2 he2
      have he3 : s2.emin = 691 := he2.symm.trans rfl
      have hprev := (normalized_slice_end h hs2).2
      rw [he3] at hprev
      have h690 : (691 + 1439) % 1440 = 690 := by norm_num
      rw [h690, hse.1] at hprev
      exact absurd hprev (by simp)

/-- Witness for C4 as amended, at the single-slice session 9:00→11:30 (a
fixed point of normalization), including the 11:31 clause discharged at both
flags. -/
theorem c4_boundary_inclusivity_witness :
    (TradeSession.mk [TimeSlice.mk (HM.mk 9 0) (HM.mk 11 30)]).in_session
        (HM.mk 11 30) false = false ∧
    (TradeSession.mk [TimeSlice.mk (HM.mk 9 0) (HM.mk 11 30)]).in_session
        (HM.mk 11 30) true = true ∧
    (TradeSession.mk [TimeSlice.mk (HM.mk 9 0) (HM.mk 11 30)]).in_session
        (HM.mk 11 31) false = false ∧
    (TradeSession.mk [TimeSlice.mk (HM.mk 9 0) (HM.mk 11 30)]).in_session
        (HM.mk 11 31) true = false := by
  have hc := c4_boundary_inclusivity
    (TradeSession.mk [TimeSlice.mk (HM.mk 9 0) (HM.mk 11 30)])
    (TradeSession.mk [TimeSlice.mk (HM.mk 9 0) (HM.mk 11 30)])
    (TimeSlice.mk (HM.mk 9 0) (HM.mk 11 30))
    (by decide) (by decide) (by decide)
  exact ⟨hc.1, hc.2.1, hc.2.2 (by decide) false, hc.2.2 (by decide) true⟩

/-- C5: registry merge vs replace — reloading a source that contains only the
record for key `B` into a registry holding only `A ↦ s1` (with `A ≠ B` and
the record's slices normalizing to `s2`) yields, with `merge = true`, the
map `A ↦ s1, B ↦ s2` with the pre-existing entry for `A` untouched; with
`merge = false` it yields the map holding only `B ↦ s2`. -/
theorem c5_reload_merge_replace (A B : String) (s1 s2 : TradeSession)
    (bs : List TimeSlice) (hAB : A ≠ B) (hs2 : TradeSession.new bs = Except.ok s2) :
    (SessionMgr.mk [(A, s1)]).reload [(B, bs)] true =
      Except.ok (SessionMgr.mk [(A, s1), (B, s2)]) ∧
    (SessionMgr.mk [(A, s1)]).reload [(B, bs)] false =
      Except.ok (SessionMgr.mk [(B, s2)]) := by
  have hab : (A == B) = false := beq_eq_false_iff_ne.mpr hAB
  constructor
  · simp only [SessionMgr.reload, loadRecords, hs2, upsert, List.any_cons, List.any_nil,
      Bool.or_false, hab, if_true, Bool.false_eq_true, if_false, List.cons_append,
      List.nil_append, Except.map]
  · simp only [SessionMgr.reload, loadRecords, hs2, upsert, List.any_cons, List.any_nil,
      Bool.or_false, if_true, Bool.false_eq_true, if_false, List.nil_append, Except.map]

/-- Witness for C5 at keys A and B with empty sessions. -/
theorem c5_reload_merge_replace_witness :
    ((SessionMgr.mk [("A", TradeSession.mk [])]).reload [("B", ([] : List TimeSlice))] true =
      Except.ok (SessionMgr.mk [("A", TradeSession.mk []), ("B", TradeSession.mk [])])) ∧
    ((SessionMgr.mk [("A", TradeSession.mk [])]).reload [("B", ([] : List TimeSlice))] false =
      Except.ok (SessionMgr.mk [("B", TradeSession.mk [])])) :=
  c5_reload_merge_replace "A" "B" (TradeSession.mk []) (TradeSession.mk []) []
    (by decide) (by decide)

/-- C6: registry lookup is case-sensitive and exact-match — in a registry
whose only registered key is the lowercase string ru, looking up the
differently-cased key Ru fails with `SessionNotFound`, while looking up ru
succeeds with the registered session. -/
theorem c6_case_sensitive_lookup (s : TradeSession) :
    (SessionMgr.mk [("ru", s)]).get_session "Ru" =
      Except.error SessErr.SessionNotFound ∧
    (SessionMgr.mk [("ru", s)]).get_session "ru" = Except.ok s := by
  have hbne : (("ru" : String) == "Ru") = false := by decide
  have hbeq : (("ru" : String) == "ru") = true := by decide
  constructor
  · simp only [SessionMgr.get_session, List.find?, hbne]
  · simp only [SessionMgr.get_session, List.find?, hbeq]

/-- C9: constructing a single TimeSlice fails with `InvalidSlice` exactly
when a time component is out of range (hour above 23 or minute above 59) or
when start equals end; in every other case it succeeds with the slice — in
particular the degenerate `start == end` slice is rejected as an error, not
read as whole-day or empty. -/
theorem c9_new_slice_validation (a b : HM) :
    (TimeSlice.new a b = Except.error SessErr.InvalidSlice ↔
      (23 < a.hour ∨ 59 < a.minute ∨ 23 < b.hour ∨ 59 < b.minute ∨ a = b)) ∧
    (TimeSlice.new a b = Except.ok (TimeSlice.mk a b) ↔
      ¬(23 < a.hour ∨ 59 < a.minute ∨ 23 < b.hour ∨ 59 < b.minute ∨ a = b)) := by
  by_cases hok : (TimeSlice.mk a b).ok = true
  · have hnew : TimeSlice.new a b = Except.ok (TimeSlice.mk a b) := by
      simp [TimeSlice.new, hok]
    obtain ⟨hsv, hev, hne⟩ := TimeSlice.ok_parts hok
    have hsv2 : a.valid = true := hsv
    have hev2 : b.valid = true := hev
    have hne2 : a ≠ b := hne
    simp only [HM.valid, Bool.and_eq_true, decide_eq_true_eq] at hsv2 hev2
    have hprop : ¬(23 < a.hour ∨ 59 < a.minute ∨ 23 < b.hour ∨ 59 < b.minute ∨ a = b) := by
      rintro (hd | hd | hd | hd | hd)
      · omega
      · omega
      · omega
      · omega
      · exact hne2 hd
    rw [hnew]
    constructor
    · constructor
      · intro hcontra
        exact Except.noConfusion hcontra
      · intro hd
        exact absurd hd hprop
    · simp [hprop]
  · have hnew : TimeSlice.new a b = Except.error SessErr.InvalidSlice := by
      simp only [TimeSlice.new]
      rw [if_neg hok]
    have hprop : (23 < a.hour ∨ 59 < a.minute ∨ 23 < b.hour ∨ 59 < b.minute ∨ a = b) := by
      by_contra hnd
      push_neg at hnd
      obtain ⟨h1, h2, h3, h4, h5⟩ := hnd
      apply hok
      have hsv : a.valid = true := by
        simp only [HM.valid, Bool.and_eq_true, decide_eq_true_eq]
        omega
      have hev : b.valid = true := by
        simp only [HM.valid, Bool.and_eq_true, decide_eq_true_eq]
        omega
      simp only [TimeSlice.ok, Bool.and_eq_true, bne_iff_ne]
      exact ⟨⟨hsv, hev⟩, h5⟩
    rw [hnew]
    constructor
    · simp [hprop]
    · constructor
      · intro hcontra
        exact Except.noConfusion hcontra
      · intro hd
        exact absurd hprop hd
